import Mathlib

/-!
Verification of the `nagios-range` crate (Nagios threshold range parsing and
evaluation).  The definitions below are a shallow embedding of `src/types.rs`
and `src/error.rs`: strings are modelled as `List Char`, and `f64` values are
modelled by the type `F` below, an exact model of the IEEE-754 double values
reachable in this crate (a NaN, the two infinities, and finite values kept as
exact rationals; the crate performs no arithmetic on its floats, only
comparisons, so rationals model finite doubles faithfully).
-/

deriving instance DecidableEq for Except

namespace Nagios

/-- Strings are modelled as lists of characters. -/
abbrev Str := List Char

/-- Model of an `f64` as used by the crate: NaN, the two infinities, or a
finite value kept as an exact rational.  The crate only ever compares floats
(no arithmetic), and on these operations the model agrees with IEEE-754. -/
inductive F where
  | nan : F
  | negInf : F
  | posInf : F
  | fin : ℚ → F
deriving DecidableEq

/-- IEEE-754 `<` on the model: any comparison involving NaN is false. -/
def F.lt : F → F → Bool
  | .nan, _ => false
  | _, .nan => false
  | .negInf, .negInf => false
  | .negInf, _ => true
  | _, .negInf => false
  | .posInf, _ => false
  | .fin _, .posInf => true
  | .fin a, .fin b => decide (a < b)

/-- IEEE-754 `<=` on the model: any comparison involving NaN is false. -/
def F.le : F → F → Bool
  | .nan, _ => false
  | _, .nan => false
  | .negInf, _ => true
  | _, .negInf => false
  | _, .posInf => true
  | .posInf, _ => false
  | .fin a, .fin b => decide (a ≤ b)

/-- IEEE-754 `>` (Rust `a > b`). -/
def F.gt (a b : F) : Bool := F.lt b a

/-- IEEE-754 `>=` (Rust `a >= b`). -/
def F.ge (a b : F) : Bool := F.le b a

/-- Model of `f64::is_infinite`. -/
def F.is_infinite : F → Bool
  | .negInf => true
  | .posInf => true
  | _ => false

/-- Model of the numeral-parse failure carried by the parse errors
(`std` float parsing fails with kind Empty on empty input, Invalid
otherwise). -/
inductive ParseFloatError where
  | empty : ParseFloatError
  | invalid : ParseFloatError
deriving DecidableEq

/-- The error enum of `src/error.rs`. -/
inductive Error where
  | EmptyRange : Error
  | StartGreaterThanEnd : Error
  | ParseStartPoint : ParseFloatError → Error
  | ParseEndPoint : ParseFloatError → Error
deriving DecidableEq

/-- The `CheckType` enum of `src/types.rs`. -/
inductive CheckType where
  | Inside : CheckType
  | Outside : CheckType
deriving DecidableEq

/-- The `NagiosRange` struct of `src/types.rs`. -/
structure NagiosRange where
  check_type : CheckType
  start : F
  «end» : F
deriving DecidableEq

/-- Decimal digit characters. -/
def isDig (c : Char) : Bool :=
  c ∈ (['0', '1', '2', '3', '4', '5', '6', '7', '8', '9'] : List Char)

/-- Numeric value of a digit character. -/
def digitVal (c : Char) : ℕ := c.toNat - '0'.toNat

/-- Accumulating decimal reading of a digit string. -/
def natFromCharsAux : Str → ℕ → ℕ
  | [], a => a
  | c :: cs, a => natFromCharsAux cs (10 * a + digitVal c)

/-- Numeric value of a (big-endian) digit string. -/
def natFromChars (s : Str) : ℕ := natFromCharsAux s 0

/-- Parses the optional exponent suffix of a float numeral
(`(e|E) sign? digits`, or nothing). -/
def parseExp : Str → Option ℤ
  | [] => some 0
  | c :: rest =>
    if c = 'e' ∨ c = 'E' then
      let p : Bool × Str :=
        match rest with
        | '+' :: t => (false, t)
        | '-' :: t => (true, t)
        | _ => (false, rest)
      let ds := p.2.takeWhile isDig
      let r2 := p.2.dropWhile isDig
      if ds = [] ∨ r2 ≠ [] then none
      else some (if p.1 then -(natFromChars ds : ℤ) else (natFromChars ds : ℤ))
    else none

/-- Exact value of a decimal numeral `ints.frs * 10^ex`. -/
def decVal (ints frs : Str) (ex : ℤ) : ℚ :=
  ((natFromChars (ints ++ frs) : ℚ) / 10 ^ frs.length) * (10 : ℚ) ^ ex

/-- Parses an unsigned decimal numeral (`digits [. digits] [exp]`, where at
least one digit must be present), returning its exact value. -/
def parseDec (t : Str) : Option ℚ :=
  let ints := t.takeWhile isDig
  let r1 := t.dropWhile isDig
  match r1 with
  | [] => if ints = [] then none else some (natFromChars ints : ℚ)
  | '.' :: r2 =>
    let frs := r2.takeWhile isDig
    let r3 := r2.dropWhile isDig
    if ints = [] ∧ frs = [] then none
    else
      match parseExp r3 with
      | some ex => some (decVal ints frs ex)
      | none => none
  | _ =>
    if ints = [] then none
    else
      match parseExp r1 with
      | some ex => some (decVal ints [] ex)
      | none => none

/-- Model of Rust's `str::parse::<f64>` (`std` `FromStr` for `f64`):
optional sign, then one of the keywords `inf`/`infinity`/`nan`
(case-insensitive) or a decimal numeral with optional fraction and exponent.
Finite values are kept exact as rationals (the rounding of an exact decimal
value to the nearest double is not modelled; no claim depends on it). -/
def parseNum (s : Str) : Except ParseFloatError F :=
  match s with
  | [] => .error .empty
  | _ =>
    let p : Bool × Str :=
      match s with
      | '+' :: ts => (false, ts)
      | '-' :: ts => (true, ts)
      | _ => (false, s)
    let tl := p.2.map Char.toLower
    if tl = ['i', 'n', 'f'] ∨ tl = ['i', 'n', 'f', 'i', 'n', 'i', 't', 'y'] then
      .ok (if p.1 then .negInf else .posInf)
    else if tl = ['n', 'a', 'n'] then .ok .nan
    else
      match parseDec p.2 with
      | some q => .ok (.fin (if p.1 then -q else q))
      | none => .error .invalid

/-- Model of Rust's `str::split_once`: splits at the first occurrence of the
separator, or returns `none` when the separator does not occur. -/
def splitOnce (c : Char) : Str → Option (Str × Str)
  | [] => none
  | x :: xs =>
    if x = c then some ([], xs)
    else
      match splitOnce c xs with
      | some p => some (x :: p.1, p.2)
      | none => none

/-- The `let start = ...` block of `parse_range` (`src/types.rs`
lines 269-275): `"~"` means negative infinity, an empty left side defaults
to `0`, anything else goes through numeral parsing. -/
def resolveStart (l : Str) : Except Error F :=
  if l = ['~'] then .ok .negInf
  else if l = [] then .ok (.fin 0)
  else (parseNum l).mapError Error.ParseStartPoint

/-- The `let end = ...` block of `parse_range` (`src/types.rs`
lines 277-286): an empty right side means positive infinity, anything else
goes through numeral parsing followed by the `start > num` ordering check. -/
def resolveEnd (start : F) (r : Str) : Except Error F :=
  if r = [] then .ok .posInf
  else
    ((parseNum r).mapError Error.ParseEndPoint).bind fun num =>
      if F.gt start num then .error .StartGreaterThanEnd else .ok num

/-- The `parse_range` function of `src/types.rs` (lines 266-296). -/
def parse_range (range : Str) : Except Error (F × F) :=
  match splitOnce ':' range with
  | some (l, r) =>
    (resolveStart l).bind fun start =>
      (resolveEnd start r).bind fun «end» => .ok (start, «end»)
  | none =>
    ((parseNum range).mapError Error.ParseEndPoint).bind fun num =>
      .ok (F.fin 0, num)

/-- The `(check_type, input)` pair computed by `NagiosRange::from` via
`input.strip_prefix('@')` (`src/types.rs` lines 35-38). -/
def stripAt (input : Str) : CheckType × Str :=
  match input with
  | '@' :: t => (CheckType.Inside, t)
  | _ => (CheckType.Outside, input)

/-- The `NagiosRange::from` constructor of `src/types.rs` (lines 30-49). -/
def NagiosRange.«from» (input : Str) : Except Error NagiosRange :=
  if input = [] then .error .EmptyRange
  else
    (parse_range (stripAt input).2).bind fun se =>
      .ok ⟨(stripAt input).1, se.1, se.2⟩

/-- The `NagiosRange::new` constructor of `src/types.rs` (lines 64-74). -/
def NagiosRange.new (check_type : CheckType) (start «end» : F) :
    Except Error NagiosRange :=
  if F.gt start «end» then .error .StartGreaterThanEnd
  else .ok ⟨check_type, start, «end»⟩

/-- The `NagiosRange::contains` method of `src/types.rs` (lines 157-159). -/
def NagiosRange.contains (r : NagiosRange) (item : F) : Bool :=
  F.ge item r.start && F.le item r.«end»

/-- The `NagiosRange::check` method of `src/types.rs` (lines 178-183). -/
def NagiosRange.check (r : NagiosRange) (item : F) : Bool :=
  match r.check_type with
  | .Inside => F.ge item r.start && F.le item r.«end»
  | .Outside => F.lt item r.start || F.gt item r.«end»

/-- Decimal digit character of a value below ten. -/
def digitChar : ℕ → Char
  | 0 => '0'
  | 1 => '1'
  | 2 => '2'
  | 3 => '3'
  | 4 => '4'
  | 5 => '5'
  | 6 => '6'
  | 7 => '7'
  | 8 => '8'
  | _ => '9'

/-- Fuel-driven big-endian decimal rendering of a natural number
(empty for zero). -/
def natToCharsAux : ℕ → ℕ → Str
  | 0, _ => []
  | fuel + 1, n =>
    if n = 0 then [] else natToCharsAux fuel (n / 10) ++ [digitChar (n % 10)]

/-- Decimal rendering of a natural number. -/
def natToChars (n : ℕ) : Str := if n = 0 then ['0'] else natToCharsAux n n

/-- Fuel-driven long division producing the fractional decimal digits of
`r / d` (for `r < d`), stopping at remainder zero. -/
def fracDigits : ℕ → ℕ → ℕ → Str
  | 0, _, _ => []
  | fuel + 1, r, d =>
    if r = 0 then [] else digitChar (10 * r / d) :: fracDigits fuel (10 * r % d) d

/-- Model of Rust's `f64` `Display` on a finite value: sign, integer part,
and (when nonzero) the exact fractional decimal expansion.  (Rust prints the
shortest decimal that reparses to the same double; in this exact-rational
model the full expansion plays that role, and every double has a terminating
one.) -/
def renderQ (q : ℚ) : Str :=
  let n := q.num.natAbs
  let d := q.den
  let frac := fracDigits d (n % d) d
  (if q < 0 then ['-'] else []) ++ natToChars (n / d) ++
    (if frac = [] then [] else '.' :: frac)

/-- Model of Rust's `f64` `Display` (`to_string`). -/
def F.toChars : F → Str
  | .nan => ['N', 'a', 'N']
  | .negInf => ['-', 'i', 'n', 'f']
  | .posInf => ['i', 'n', 'f']
  | .fin q => renderQ q

/-- The `Display` implementation for `NagiosRange` (`src/types.rs`
lines 239-256). -/
def NagiosRange.toText (r : NagiosRange) : Str :=
  let start := if r.start.is_infinite then ['~'] else r.start.toChars
  let «end» := if r.«end».is_infinite then ['~'] else r.«end».toChars
  match r.check_type with
  | .Inside => '@' :: (start ++ ':' :: «end»)
  | .Outside => start ++ ':' :: «end»

/-- A rational has a terminating decimal expansion exactly when its reduced
denominator divides a power of ten; `10 ^ den` is always a large enough
power.  Every IEEE-754 double satisfies this (its reduced denominator is a
power of two), so this hypothesis is the faithfulness condition of the
exact-rational model of finite doubles. -/
def decimalRep (q : ℚ) : Prop := (q.den : ℕ) ∣ 10 ^ q.den

/-- A finite value of the float model has a terminating decimal expansion;
vacuous for NaN and the infinities. -/
def F.decRepOK : F → Prop
  | .fin q => decimalRep q
  | _ => True

instance (q : ℚ) : Decidable (decimalRep q) := by unfold decimalRep; infer_instance

instance (x : F) : Decidable (F.decRepOK x) := by
  unfold F.decRepOK; cases x <;> infer_instance

example : parseNum ['1', '0'] = .ok (.fin 10) := by decide
example : parseNum ['-', '5'] = .ok (.fin (-5)) := by decide
example : parseNum ['~'] = .error .invalid := by decide
example : parseNum [] = .error .empty := by decide
example : NagiosRange.«from» ("-5".toList) = .ok ⟨.Outside, .fin 0, .fin (-5)⟩ := by
  decide
example : NagiosRange.«from» ("@10:20".toList) = .ok ⟨.Inside, .fin 10, .fin 20⟩ := by
  decide
example : NagiosRange.«from» ("~:10".toList) = .ok ⟨.Outside, .negInf, .fin 10⟩ := by
  decide
example : NagiosRange.«from» ("@20:-20".toList) = .error .StartGreaterThanEnd := by
  decide
example : (NagiosRange.mk .Inside (.fin 10) .posInf).toText = "@10:~".toList := by
  decide
example : (NagiosRange.mk .Outside (.fin 0) (.fin 10)).toText = "0:10".toList := by
  decide

theorem F.le_nan (a : F) : F.le a .nan = false := by cases a <;> rfl

theorem F.nan_le (a : F) : F.le .nan a = false := by cases a <;> rfl

theorem F.lt_nan (a : F) : F.lt a .nan = false := by cases a <;> rfl

theorem F.nan_lt (a : F) : F.lt .nan a = false := by cases a <;> rfl

theorem ebind_ok {ε α β} (a : α) (f : α → Except ε β) :
    (Except.ok a).bind f = f a := rfl

theorem ebind_error {ε α β} (e : ε) (f : α → Except ε β) :
    (Except.error e : Except ε α).bind f = .error e := rfl

theorem emapError_ok {ε ε' α} (f : ε → ε') (a : α) :
    (Except.ok a : Except ε α).mapError f = .ok a := rfl

theorem emapError_error {ε ε' α} (f : ε → ε') (e : ε) :
    (Except.error e : Except ε α).mapError f = .error (f e) := rfl

theorem resolveStart_error_iff (l : Str) (e : Error) :
    resolveStart l = .error e ↔
      ∃ c, e = .ParseStartPoint c ∧ l ≠ ['~'] ∧ l ≠ [] ∧ parseNum l = .error c := by
  constructor
  · intro h
    rw [resolveStart] at h
    split at h
    · exact nomatch h
    · split at h
      · exact nomatch h
      · rename_i h1 h2
        rcases hp : parseNum l with c | v <;>
          simp only [hp, emapError_error, emapError_ok] at h
        · injection h with h
          exact ⟨c, h.symm, h1, h2, rfl⟩
        · exact nomatch h
  · rintro ⟨c, rfl, h1, h2, hp⟩
    rw [resolveStart, if_neg h1, if_neg h2, hp, emapError_error]

theorem resolveStart_ok_iff (l : Str) (v : F) :
    resolveStart l = .ok v ↔
      (l = ['~'] ∧ v = .negInf) ∨ (l ≠ ['~'] ∧ l = [] ∧ v = .fin 0) ∨
        (l ≠ ['~'] ∧ l ≠ [] ∧ parseNum l = .ok v) := by
  constructor
  · intro h
    rw [resolveStart] at h
    split at h
    · rename_i h1
      injection h with h
      exact Or.inl ⟨h1, h.symm⟩
    · split at h
      · rename_i h1 h2
        injection h with h
        exact Or.inr (Or.inl ⟨h1, h2, h.symm⟩)
      · rename_i h1 h2
        rcases hp : parseNum l with c | w <;>
          simp only [hp, emapError_error, emapError_ok] at h
        · exact nomatch h
        · injection h with h
          exact Or.inr (Or.inr ⟨h1, h2, by rw [h]⟩)
  · rintro (⟨rfl, rfl⟩ | ⟨h1, rfl, rfl⟩ | ⟨h1, h2, hp⟩)
    · simp [resolveStart]
    · simp [resolveStart, h1]
    · rw [resolveStart, if_neg h1, if_neg h2, hp, emapError_ok]

theorem resolveEnd_error_iff (s : F) (r : Str) (e : Error) :
    resolveEnd s r = .error e ↔
      r ≠ [] ∧
        ((∃ c, e = .ParseEndPoint c ∧ parseNum r = .error c) ∨
          (e = .StartGreaterThanEnd ∧ ∃ n, parseNum r = .ok n ∧ F.gt s n = true)) := by
  constructor
  · intro h
    rw [resolveEnd] at h
    split at h
    · exact nomatch h
    · rename_i hr
      rcases hp : parseNum r with c | n <;>
        simp only [hp, emapError_error, emapError_ok, ebind_error, ebind_ok] at h
      · injection h with h
        exact ⟨hr, Or.inl ⟨c, h.symm, rfl⟩⟩
      · split at h
        · rename_i hgt
          injection h with h
          exact ⟨hr, Or.inr ⟨h.symm, n, rfl, hgt⟩⟩
        · exact nomatch h
  · rintro ⟨hr, ⟨c, rfl, hp⟩ | ⟨rfl, n, hp, hgt⟩⟩
    · simp only [resolveEnd, if_neg hr, hp, emapError_error, ebind_error]
    · simp only [resolveEnd, if_neg hr, hp, emapError_ok, ebind_ok, if_pos hgt]

theorem resolveEnd_ok_iff (s : F) (r : Str) (v : F) :
    resolveEnd s r = .ok v ↔
      (r = [] ∧ v = .posInf) ∨
        (r ≠ [] ∧ parseNum r = .ok v ∧ F.gt s v = false) := by
  constructor
  · intro h
    rw [resolveEnd] at h
    split at h
    · rename_i hr
      injection h with h
      exact Or.inl ⟨hr, h.symm⟩
    · rename_i hr
      rcases hp : parseNum r with c | n <;>
        simp only [hp, emapError_error, emapError_ok, ebind_error, ebind_ok] at h
      · exact nomatch h
      · split at h
        · exact nomatch h
        · rename_i hgt
          injection h with h
          subst h
          exact Or.inr ⟨hr, rfl, by simpa using hgt⟩
  · rintro (⟨rfl, rfl⟩ | ⟨hr, hp, hgt⟩)
    · simp [resolveEnd]
    · simp [resolveEnd, hr, hp, hgt, emapError_ok, ebind_ok]

theorem stripAt_not_at (s : Str) (h : s.head? ≠ some '@') :
    stripAt s = (.Outside, s) := by
  unfold stripAt
  split
  · simp_all
  · rfl

theorem splitOnce_eq_none {c : Char} : ∀ {s : Str}, c ∉ s → splitOnce c s = none := by
  intro s h
  induction s with
  | nil => rfl
  | cons x xs ih =>
    rw [List.mem_cons, not_or] at h
    rw [splitOnce, if_neg (fun hxc => h.1 hxc.symm), ih h.2]

theorem splitOnce_append {c : Char} :
    ∀ {l : Str} (r : Str), c ∉ l → splitOnce c (l ++ c :: r) = some (l, r) := by
  intro l r h
  induction l with
  | nil => simp [splitOnce]
  | cons x xs ih =>
    rw [List.mem_cons, not_or] at h
    rw [List.cons_append, splitOnce, if_neg (fun hxc => h.1 hxc.symm), ih h.2]

theorem parse_range_ne_emptyRange (t : Str) :
    parse_range t ≠ .error .EmptyRange := by
  intro hcontra
  rw [parse_range] at hcontra
  split at hcontra
  · rename_i l r heq
    rcases hs : resolveStart l with e | v <;>
      simp only [hs, ebind_error, ebind_ok] at hcontra
    · injection hcontra with h
      subst h
      obtain ⟨c, hc, -, -, -⟩ := (resolveStart_error_iff _ _).mp hs
      simp at hc
    · rcases he : resolveEnd v r with e | w <;>
        simp only [he, ebind_error, ebind_ok] at hcontra
      · injection hcontra with h
        subst h
        obtain ⟨-, ⟨c, hc, -⟩ | ⟨hc, -⟩⟩ := (resolveEnd_error_iff _ _ _).mp he <;>
          simp at hc
      · exact nomatch hcontra
  · rcases hp : parseNum t with c | n <;>
      simp only [hp, emapError_error, emapError_ok, ebind_error, ebind_ok]
        at hcontra
    · simp at hcontra
    · exact nomatch hcontra

/-- C5: `NagiosRange::from(text)` fails with `EmptyRange` exactly when the
input has zero length; in particular no other error is returned for empty
input and `EmptyRange` is never returned for non-empty input. -/
theorem from_emptyRange_iff (s : Str) :
    NagiosRange.«from» s = .error .EmptyRange ↔ s = [] := by
  constructor
  · intro h
    by_contra hne
    rw [NagiosRange.«from», if_neg hne] at h
    rcases hp : parse_range (stripAt s).2 with e | v <;>
      simp only [hp, ebind_error, ebind_ok] at h
    · injection h with h
      exact parse_range_ne_emptyRange _ (h ▸ hp)
    · exact nomatch h
  · intro h
    subst h
    rfl

/-- C5 witness: at the concrete inputs `""` and `"5"`. -/
theorem from_emptyRange_iff_witness :
    NagiosRange.«from» [] = .error .EmptyRange ∧
      NagiosRange.«from» ['5'] ≠ .error .EmptyRange := by
  refine ⟨(from_emptyRange_iff []).mpr rfl, fun h => ?_⟩
  exact absurd ((from_emptyRange_iff ['5']).mp h) (by decide)

/-- C10: no constructed range ever alerts on a NaN sample: `contains` is
false at NaN and `check` is false at NaN under both polarities (every
IEEE-754 comparison against NaN is false). -/
theorem nan_never_alerts (r : NagiosRange) :
    r.contains F.nan = false ∧ r.check F.nan = false := by
  obtain ⟨ct, s, e⟩ := r
  cases ct <;>
    simp [NagiosRange.contains, NagiosRange.check, F.ge, F.gt,
      F.le_nan, F.nan_le, F.lt_nan, F.nan_lt]

/-- C1: the no-separator branch of `parse_range` (`src/types.rs` lines
290-295) performs no `start > end` ordering check, unlike the separator
branch and `NagiosRange::new`; hence `NagiosRange::from("-5")` succeeds with
lower bound `0` strictly greater than upper bound `-5` instead of failing
with `StartGreaterThanEnd`. -/
theorem from_no_separator_skips_order_check :
    NagiosRange.«from» ("-5".toList) = .ok ⟨.Outside, .fin 0, .fin (-5)⟩ ∧
      F.gt (F.fin 0) (F.fin (-5)) = true := by decide

/-- C2 counterexample: for the Outside range parsed from `"10"`, `check` at
NaN is `false` while the negation of `contains` at NaN is `true`; likewise
for a NaN lower bound (range parsed from `"nan:10"`) at sample `0`.  So
`check` is not the pointwise negation of `contains` on all samples. -/
theorem check_vs_contains_cex :
    ((NagiosRange.«from» ("10".toList)).map
        (fun r => (r.check_type, r.check F.nan, !r.contains F.nan)) =
      .ok (.Outside, false, true)) ∧
      ((NagiosRange.«from» ("nan:10".toList)).map
          (fun r => (r.check_type, r.check (F.fin 0), !r.contains (F.fin 0))) =
        .ok (.Outside, false, true)) := by decide

/-- C2 (amended): for every range and sample, under Inside polarity `check`
equals `contains`; under Outside polarity `check` is the strict test
`x < lower || x > upper`, which equals the negation of `contains` whenever
neither the sample nor a bound is NaN. -/
theorem check_vs_contains (r : NagiosRange) (x : F) :
    (r.check_type = .Inside → r.check x = r.contains x) ∧
      (r.check_type = .Outside → x ≠ .nan → r.start ≠ .nan → r.«end» ≠ .nan →
        r.check x = !r.contains x) := by
  obtain ⟨ct, s, e⟩ := r
  constructor
  · rintro rfl
    rfl
  · rintro rfl hx hs he
    rcases x with _ | _ | _ | a <;> rcases s with _ | _ | _ | b <;>
      rcases e with _ | _ | _ | c <;>
      simp_all [NagiosRange.check, NagiosRange.contains, F.ge, F.gt, F.le, F.lt,
        not_and_or, not_le] <;>
      simp [← decide_not, ← Bool.decide_or, decide_eq_decide, not_le]

/-- C2 witness: both conjuncts at the range `[0, 10]` and sample `5`. -/
theorem check_vs_contains_witness :
    (NagiosRange.mk .Inside (.fin 0) (.fin 10)).check (.fin 5) =
        (NagiosRange.mk .Inside (.fin 0) (.fin 10)).contains (.fin 5) ∧
      (NagiosRange.mk .Outside (.fin 0) (.fin 10)).check (.fin 5) =
        !(NagiosRange.mk .Outside (.fin 0) (.fin 10)).contains (.fin 5) :=
  ⟨(check_vs_contains _ _).1 rfl,
    (check_vs_contains _ _).2 rfl (by decide) (by decide) (by decide)⟩

/-- C3 counterexample: `NagiosRange::from("-5")` succeeds with the finite
bounds `0` and `-5`, and `contains(lower)` is `false` there; moreover for
the doubly-unbounded range `"~:"` both comparisons are against infinite
bounds yet `contains(NaN)` is `false`.  So the claimed characterization
fails as stated. -/
theorem contains_characterization_cex :
    ((NagiosRange.«from» ("-5".toList)).map
        (fun r => (r.start, r.«end», r.contains r.start)) =
      .ok (F.fin 0, F.fin (-5), false)) ∧
      ((NagiosRange.«from» ("~:".toList)).map
          (fun r => (r.start, r.«end», r.contains F.nan)) =
        .ok (F.negInf, F.posInf, false)) := by decide

/-- C3 (amended): for a non-NaN sample, `contains` holds exactly when the
sample passes each side, a side being passed when its bound is the
corresponding infinity or the IEEE comparison holds; and `contains` is
reflexive at both bounds when they are finite rationals `a ≤ b`. -/
theorem contains_characterization (r : NagiosRange) (x : F) :
    (x ≠ F.nan →
      (r.contains x = true ↔
        (r.start = F.negInf ∨ F.le r.start x = true) ∧
          (r.«end» = F.posInf ∨ F.le x r.«end» = true))) ∧
      (∀ a b : ℚ, r.start = .fin a → r.«end» = .fin b → a ≤ b →
        r.contains r.start = true ∧ r.contains r.«end» = true) := by
  obtain ⟨ct, s, e⟩ := r
  constructor
  · intro hx
    rcases x with _ | _ | _ | a <;> rcases s with _ | _ | _ | b <;>
      rcases e with _ | _ | _ | c <;>
      simp_all [NagiosRange.contains, F.ge, F.le]
  · rintro a b rfl rfl hab
    simp [NagiosRange.contains, F.ge, F.le, hab]

/-- C3 witness: both conjuncts at the range `[0, 10]`. -/
theorem contains_characterization_witness :
    ((NagiosRange.mk .Outside (.fin 0) (.fin 10)).contains (.fin 5) = true ↔
        ((NagiosRange.mk .Outside (.fin 0) (.fin 10)).start = F.negInf ∨
            F.le (NagiosRange.mk .Outside (.fin 0) (.fin 10)).start (.fin 5) = true) ∧
          ((NagiosRange.mk .Outside (.fin 0) (.fin 10)).«end» = F.posInf ∨
            F.le (.fin 5) (NagiosRange.mk .Outside (.fin 0) (.fin 10)).«end» = true)) ∧
      ((NagiosRange.mk .Outside (.fin 0) (.fin 10)).contains (.fin 0) = true ∧
        (NagiosRange.mk .Outside (.fin 0) (.fin 10)).contains (.fin 10) = true) :=
  ⟨(contains_characterization (NagiosRange.mk .Outside (.fin 0) (.fin 10))
        (.fin 5)).1 (by decide),
    (contains_characterization (NagiosRange.mk .Outside (.fin 0) (.fin 10))
        (.fin 5)).2 0 10 rfl rfl (by decide)⟩

theorem resolveStart_isOk_iff (l : Str) :
    (resolveStart l).isOk = true ↔ ∃ v, resolveStart l = .ok v := by
  rcases h : resolveStart l with e | v <;> simp [Except.isOk, Except.toBool]

theorem parse_range_cons_eq (l r : Str) (hc : ':' ∉ l) :
    parse_range (l ++ ':' :: r) =
      (resolveStart l).bind fun start =>
        (resolveEnd start r).bind fun e2 => .ok (start, e2) := by
  rw [parse_range, splitOnce_append r hc]

theorem parse_range_split_ok_iff (l r : Str) (hc : ':' ∉ l) (a b : F) :
    parse_range (l ++ ':' :: r) = .ok (a, b) ↔
      resolveStart l = .ok a ∧ resolveEnd a r = .ok b := by
  rw [parse_range_cons_eq l r hc]
  constructor
  · intro h
    rcases hs : resolveStart l with e | v <;>
      simp only [hs, ebind_error, ebind_ok] at h
    · exact nomatch h
    · rcases he : resolveEnd v r with e | w <;>
        simp only [he, ebind_error, ebind_ok] at h
      · exact nomatch h
      · injection h with h
        rw [Prod.mk.injEq] at h
        obtain ⟨rfl, rfl⟩ := h
        exact ⟨rfl, he⟩
  · rintro ⟨h1, h2⟩
    simp only [h1, ebind_ok, h2]

theorem parse_range_split_error_iff (l r : Str) (hc : ':' ∉ l) (e : Error) :
    parse_range (l ++ ':' :: r) = .error e ↔
      resolveStart l = .error e ∨
        ∃ a, resolveStart l = .ok a ∧ resolveEnd a r = .error e := by
  rw [parse_range_cons_eq l r hc]
  constructor
  · intro h
    rcases hs : resolveStart l with e2 | v <;>
      simp only [hs, ebind_error, ebind_ok] at h
    · injection h with h
      exact Or.inl (by rw [h])
    · rcases he : resolveEnd v r with e2 | w <;>
        simp only [he, ebind_error, ebind_ok] at h
      · injection h with h
        exact Or.inr ⟨v, rfl, h ▸ he⟩
      · exact nomatch h
  · rintro (h | ⟨a, h1, h2⟩)
    · simp only [h, ebind_error]
    · simp only [h1, ebind_ok, h2, ebind_error]

/-- C7: a non-empty input with no `':'` separator and no leading `'@'` that
parses as a number yields an Outside range with lower bound `0` and the
parsed number as upper bound. -/
theorem from_no_separator (s : Str) (n : F) (hc : ':' ∉ s)
    (ha : s.head? ≠ some '@') (hp : parseNum s = .ok n) :
    NagiosRange.«from» s = .ok ⟨.Outside, .fin 0, n⟩ := by
  have hne : s ≠ [] := by
    rintro rfl
    simp [parseNum] at hp
  have hpr : parse_range s = .ok (F.fin 0, n) := by
    rw [parse_range, splitOnce_eq_none hc, hp, emapError_ok, ebind_ok]
  rw [NagiosRange.«from», if_neg hne, stripAt_not_at s ha]
  simp only [hpr, ebind_ok]

/-- C7 witness: at the concrete input `"10"`. -/
theorem from_no_separator_witness :
    NagiosRange.«from» ("10".toList) = .ok ⟨.Outside, .fin 0, .fin 10⟩ :=
  from_no_separator _ _ (by decide) (by decide) (by decide)

/-- C6: with a separator present, an empty left side resolves the lower
bound to `0`, a left side that is exactly the marker `"~"` resolves it to
negative infinity, any other left side goes through numeral parsing (the
marker is never recognized inside a longer token), an empty right side
resolves the upper bound to positive infinity, and a right side that is the
literal `"~"` is rejected by numeral parsing with `ParseEndPoint` (once the
left side resolves), not treated as unbounded. -/
theorem separator_bound_resolution (l r : Str) (hc : ':' ∉ l) :
    (l = [] → ∀ a b, parse_range (l ++ ':' :: r) = .ok (a, b) → a = F.fin 0) ∧
      (l = ['~'] →
        ∀ a b, parse_range (l ++ ':' :: r) = .ok (a, b) → a = F.negInf) ∧
      (l ≠ [] → l ≠ ['~'] →
        ∀ a b, parse_range (l ++ ':' :: r) = .ok (a, b) → parseNum l = .ok a) ∧
      (r = [] → ∀ a b, parse_range (l ++ ':' :: r) = .ok (a, b) → b = F.posInf) ∧
      (r = ['~'] → (resolveStart l).isOk = true →
        parse_range (l ++ ':' :: r) = .error (.ParseEndPoint .invalid)) := by
  refine ⟨?_, ?_, ?_, ?_, ?_⟩
  · rintro rfl a b h
    obtain ⟨h1, -⟩ := (parse_range_split_ok_iff [] r hc a b).mp h
    rcases (resolveStart_ok_iff [] a).mp h1 with ⟨h2, -⟩ | ⟨-, -, h2⟩ | ⟨-, h2, -⟩
    · simp at h2
    · exact h2
    · exact absurd rfl h2
  · rintro rfl a b h
    obtain ⟨h1, -⟩ := (parse_range_split_ok_iff _ r hc a b).mp h
    rcases (resolveStart_ok_iff _ a).mp h1 with ⟨-, h2⟩ | ⟨h2, -, -⟩ | ⟨h2, -, -⟩
    · exact h2
    · exact absurd rfl h2
    · exact absurd rfl h2
  · intro h1 h2 a b h
    obtain ⟨h3, -⟩ := (parse_range_split_ok_iff _ r hc a b).mp h
    rcases (resolveStart_ok_iff _ a).mp h3 with ⟨h4, -⟩ | ⟨-, h4, -⟩ | ⟨-, -, h4⟩
    · exact absurd h4 h2
    · exact absurd h4 h1
    · exact h4
  · rintro rfl a b h
    obtain ⟨-, h1⟩ := (parse_range_split_ok_iff l _ hc a b).mp h
    rcases (resolveEnd_ok_iff a _ b).mp h1 with ⟨-, h2⟩ | ⟨h2, -, -⟩
    · exact h2
    · exact absurd rfl h2
  · rintro rfl hok
    obtain ⟨v, hv⟩ := (resolveStart_isOk_iff l).mp hok
    have hre : resolveEnd v ['~'] = .error (.ParseEndPoint .invalid) := by
      rw [resolveEnd, if_neg (by simp),
        (by decide : parseNum ['~'] = .error .invalid), emapError_error,
        ebind_error]
    exact (parse_range_split_error_iff l ['~'] hc _).mpr (Or.inr ⟨v, hv, hre⟩)

/-- C6 witness: the right-hand literal `"~"` in `"5:~"` is rejected with
`ParseEndPoint`. -/
theorem separator_bound_resolution_witness :
    parse_range ("5:~".toList) = .error (.ParseEndPoint .invalid) :=
  (separator_bound_resolution ['5'] ['~'] (by decide)).2.2.2.2 rfl (by decide)

/-- C8: a numeral-parse failure on either side surfaces as that side's
parse error, and `StartGreaterThanEnd` can only arise (in the separator
branch) after the left side has resolved and the right side has parsed,
with the resolved start strictly greater than the parsed end. -/
theorem parse_before_order :
    (∀ (l r : Str), ':' ∉ l →
      ((∀ c, l ≠ [] → l ≠ ['~'] → parseNum l = .error c →
          parse_range (l ++ ':' :: r) = .error (.ParseStartPoint c)) ∧
        (∀ c, r ≠ [] → (resolveStart l).isOk = true → parseNum r = .error c →
          parse_range (l ++ ':' :: r) = .error (.ParseEndPoint c)) ∧
        (parse_range (l ++ ':' :: r) = .error .StartGreaterThanEnd →
          ∃ a b, resolveStart l = .ok a ∧ parseNum r = .ok b ∧
            F.gt a b = true))) ∧
      (∀ s : Str, ':' ∉ s → ∀ c, parseNum s = .error c →
        parse_range s = .error (.ParseEndPoint c)) := by
  constructor
  · intro l r hc
    refine ⟨?_, ?_, ?_⟩
    · intro c h1 h2 hp
      exact (parse_range_split_error_iff l r hc _).mpr
        (Or.inl ((resolveStart_error_iff _ _).mpr ⟨c, rfl, h2, h1, hp⟩))
    · intro c hr hok hp
      obtain ⟨v, hv⟩ := (resolveStart_isOk_iff l).mp hok
      exact (parse_range_split_error_iff l r hc _).mpr
        (Or.inr ⟨v, hv, (resolveEnd_error_iff v r _).mpr
          ⟨hr, Or.inl ⟨c, rfl, hp⟩⟩⟩)
    · intro h
      rcases (parse_range_split_error_iff l r hc _).mp h with h1 | ⟨a, ha, h2⟩
      · obtain ⟨c, hcc, -⟩ := (resolveStart_error_iff _ _).mp h1
        simp at hcc
      · obtain ⟨-, ⟨c, hcc, -⟩ | ⟨-, n, hn, hgt⟩⟩ :=
          (resolveEnd_error_iff a r _).mp h2
        · simp at hcc
        · exact ⟨a, n, ha, hn, hgt⟩
  · intro s hc c hp
    rw [parse_range, splitOnce_eq_none hc, hp, emapError_error, ebind_error]

/-- C8 witness: the three error conjuncts at concrete malformed inputs. -/
theorem parse_before_order_witness :
    parse_range ("a:b".toList) = .error (.ParseStartPoint .invalid) ∧
      parse_range ("5:b".toList) = .error (.ParseEndPoint .invalid) ∧
      parse_range ("x".toList) = .error (.ParseEndPoint .invalid) :=
  ⟨(parse_before_order.1 ['a'] ['b'] (by decide)).1 .invalid (by decide)
      (by decide) (by decide),
    (parse_before_order.1 ['5'] ['b'] (by decide)).2.1 .invalid (by decide)
      (by decide) (by decide),
    parse_before_order.2 ['x'] (by decide) .invalid (by decide)⟩

theorem parse_range_some_eq (t l r : Str) (h : splitOnce ':' t = some (l, r)) :
    parse_range t =
      (resolveStart l).bind fun start =>
        (resolveEnd start r).bind fun e2 => .ok (start, e2) := by
  rw [parse_range, h]

theorem parse_range_none_eq (t : Str) (h : splitOnce ':' t = none) :
    parse_range t =
      ((parseNum t).mapError Error.ParseEndPoint).bind fun num =>
        .ok (F.fin 0, num) := by
  rw [parse_range, h]

/-- C4 counterexample: `NagiosRange::from("@")` sends the empty remaining
token through numeral parsing and yields `ParseEndPoint` although that token
is empty; and `NagiosRange::from("a:b")` has a non-empty right side that
fails numeral parsing yet returns `ParseStartPoint`.  So the claimed
biconditional fails in both directions. -/
theorem from_parseEndPoint_cex :
    NagiosRange.«from» ("@".toList) = .error (.ParseEndPoint .empty) ∧
      NagiosRange.«from» ("a:b".toList) = .error (.ParseStartPoint .invalid) := by
  decide

/-- C4 (amended): `NagiosRange::from` returns `ParseEndPoint(cause)` exactly
when, after the `'@'` strip: a separator is present, the left side resolves,
and the right side is non-empty and fails numeral parsing with that cause;
or no separator is present and the whole remaining token (possibly empty, as
for input `"@"`) fails numeral parsing with that cause. -/
theorem from_parseEndPoint_iff (s : Str) (c : ParseFloatError) :
    NagiosRange.«from» s = .error (.ParseEndPoint c) ↔
      s ≠ [] ∧
        (match splitOnce ':' (stripAt s).2 with
         | some (l, r) =>
           (resolveStart l).isOk = true ∧ r ≠ [] ∧ parseNum r = .error c
         | none => parseNum (stripAt s).2 = .error c) := by
  constructor
  · intro h
    have hne : s ≠ [] := by
      rintro rfl
      simp [NagiosRange.«from»] at h
    refine ⟨hne, ?_⟩
    rw [NagiosRange.«from», if_neg hne] at h
    rcases hpr : parse_range (stripAt s).2 with e | v <;>
      simp only [hpr, ebind_error, ebind_ok] at h
    · injection h with h
      subst h
      rcases hsp : splitOnce ':' (stripAt s).2 with _ | ⟨l, r⟩
      · rw [parse_range_none_eq _ hsp] at hpr
        show parseNum (stripAt s).2 = .error c
        rcases hp : parseNum (stripAt s).2 with c2 | n <;>
          simp only [hp, emapError_error, emapError_ok, ebind_error, ebind_ok]
            at hpr
        · injection hpr with h2
          injection h2 with h2
          rw [h2]
        · exact nomatch hpr
      · rw [parse_range_some_eq _ _ _ hsp] at hpr
        show (resolveStart l).isOk = true ∧ r ≠ [] ∧ parseNum r = .error c
        rcases hs : resolveStart l with e2 | v <;>
          simp only [hs, ebind_error, ebind_ok] at hpr
        · obtain ⟨c2, hc2, -, -, -⟩ := (resolveStart_error_iff _ _).mp hs
          injection hpr with h2
          rw [h2] at hc2
          simp at hc2
        · rcases he : resolveEnd v r with e3 | w <;>
            simp only [he, ebind_error, ebind_ok] at hpr
          · injection hpr with h2
            obtain ⟨hr, ⟨c2, hc2, hp2⟩ | ⟨hc2, -⟩⟩ :=
              (resolveEnd_error_iff v r _).mp he
            · refine ⟨rfl, hr, ?_⟩
              rw [h2] at hc2
              injection hc2 with hc2
              rw [hc2]
              exact hp2
            · rw [h2] at hc2
              simp at hc2
          · exact nomatch hpr
    · exact nomatch h
  · rintro ⟨hne, hm⟩
    rw [NagiosRange.«from», if_neg hne]
    rcases hsp : splitOnce ':' (stripAt s).2 with _ | ⟨l, r⟩
    · rw [hsp] at hm
      have hm2 : parseNum (stripAt s).2 = .error c := hm
      have hpr : parse_range (stripAt s).2 = .error (.ParseEndPoint c) := by
        rw [parse_range_none_eq _ hsp, hm2, emapError_error, ebind_error]
      simp only [hpr, ebind_error]
    · rw [hsp] at hm
      obtain ⟨hok, hr, hp⟩ :=
        (hm : (resolveStart l).isOk = true ∧ r ≠ [] ∧ parseNum r = .error c)
      obtain ⟨v, hv⟩ := (resolveStart_isOk_iff l).mp hok
      have hre : resolveEnd v r = .error (.ParseEndPoint c) := by
        rw [resolveEnd, if_neg hr, hp, emapError_error, ebind_error]
      have hpr : parse_range (stripAt s).2 = .error (.ParseEndPoint c) := by
        rw [parse_range_some_eq _ _ _ hsp]
        simp only [hv, ebind_ok, hre, ebind_error]
      simp only [hpr, ebind_error]

/-- C4 witness: the amended biconditional applied at the input `"5:x"`. -/
theorem from_parseEndPoint_iff_witness :
    NagiosRange.«from» ("5:x".toList) = .error (.ParseEndPoint .invalid) :=
  (from_parseEndPoint_iff ("5:x".toList) .invalid).mpr
    ⟨by decide, ⟨by decide, by decide, by decide⟩⟩

theorem isDig_cases {c : Char} (h : isDig c = true) :
    c = '0' ∨ c = '1' ∨ c = '2' ∨ c = '3' ∨ c = '4' ∨ c = '5' ∨ c = '6' ∨
      c = '7' ∨ c = '8' ∨ c = '9' := by
  simpa [isDig] using h

theorem digitVal_digitChar {d : ℕ} (h : d < 10) :
    digitVal (digitChar d) = d := by
  interval_cases d <;> decide

theorem isDig_digitChar {d : ℕ} (h : d < 10) : isDig (digitChar d) = true := by
  interval_cases d <;> decide

theorem toLower_digit {c : Char} (h : isDig c = true) : Char.toLower c = c := by
  rcases isDig_cases h with rfl | rfl | rfl | rfl | rfl | rfl | rfl | rfl |
    rfl | rfl <;> decide

theorem span_append {p : Char → Bool} :
    ∀ (xs ys : Str), (∀ a ∈ xs, p a = true) →
      (match ys with | [] => True | c :: _ => p c = false) →
      (xs ++ ys).takeWhile p = xs ∧ (xs ++ ys).dropWhile p = ys := by
  intro xs
  induction xs with
  | nil =>
    intro ys _ hy
    rcases ys with _ | ⟨c, t⟩
    · exact ⟨rfl, rfl⟩
    · simp only [List.nil_append, List.takeWhile_cons, List.dropWhile_cons, hy,
        Bool.false_eq_true, if_false]
      exact ⟨trivial, trivial⟩
  | cons x xs ih =>
    intro ys hx hy
    have hpx : p x = true := hx x (List.mem_cons_self _ _)
    have hxs : ∀ a ∈ xs, p a = true := fun a ha => hx a (List.mem_cons_of_mem _ ha)
    obtain ⟨h1, h2⟩ := ih ys hxs hy
    simp only [List.cons_append, List.takeWhile_cons, List.dropWhile_cons, hpx,
      if_true, h1, h2]
    exact ⟨trivial, trivial⟩

theorem natFromCharsAux_eq (xs : Str) :
    ∀ a : ℕ, natFromCharsAux xs a = a * 10 ^ xs.length + natFromChars xs := by
  induction xs with
  | nil => intro a; simp [natFromCharsAux, natFromChars]
  | cons c cs ih =>
    intro a
    show natFromCharsAux cs (10 * a + digitVal c) = _
    rw [ih]
    have h2 : natFromChars (c :: cs) =
        digitVal c * 10 ^ cs.length + natFromChars cs := by
      show natFromCharsAux cs (10 * 0 + digitVal c) = _
      rw [ih]
      ring
    rw [h2, List.length_cons]
    ring

theorem natFromChars_cons (c : Char) (cs : Str) :
    natFromChars (c :: cs) = digitVal c * 10 ^ cs.length + natFromChars cs := by
  show natFromCharsAux cs (10 * 0 + digitVal c) = _
  rw [natFromCharsAux_eq]
  ring

theorem natFromChars_append (xs ys : Str) :
    natFromChars (xs ++ ys) =
      natFromChars xs * 10 ^ ys.length + natFromChars ys := by
  induction xs with
  | nil => simp [natFromChars, natFromCharsAux]
  | cons c cs ih =>
    rw [List.cons_append, natFromChars_cons, natFromChars_cons, ih,
      List.length_append]
    ring

theorem natToCharsAux_digits :
    ∀ (fuel n : ℕ), ∀ c ∈ natToCharsAux fuel n, isDig c = true := by
  intro fuel
  induction fuel with
  | zero => intro n c hc; simp [natToCharsAux] at hc
  | succ fuel ih =>
    intro n c hc
    rw [natToCharsAux] at hc
    split at hc
    · simp at hc
    · rw [List.mem_append] at hc
      rcases hc with hc | hc
      · exact ih _ c hc
      · rw [List.mem_singleton] at hc
        subst hc
        exact isDig_digitChar (Nat.mod_lt _ (by norm_num))

theorem natToChars_digits (n : ℕ) : ∀ c ∈ natToChars n, isDig c = true := by
  intro c hc
  rw [natToChars] at hc
  split at hc
  · rw [List.mem_singleton] at hc
    subst hc
    decide
  · exact natToCharsAux_digits n n c hc

theorem natToChars_ne_nil (n : ℕ) : natToChars n ≠ [] := by
  rw [natToChars]
  split
  · simp
  · rename_i hn
    rcases n with _ | m
    · exact absurd rfl hn
    · rw [natToCharsAux, if_neg hn]
      simp

theorem natFromChars_natToCharsAux :
    ∀ (fuel n : ℕ), n ≤ fuel → natFromChars (natToCharsAux fuel n) = n := by
  intro fuel
  induction fuel with
  | zero =>
    intro n hn
    interval_cases n
    rfl
  | succ fuel ih =>
    intro n hn
    rw [natToCharsAux]
    split
    · rename_i h0
      subst h0
      rfl
    · rename_i h0
      rw [natFromChars_append, ih (n / 10) (by omega),
        natFromChars_cons]
      simp only [List.length_nil, List.length_singleton, pow_zero, pow_one,
        natFromChars, natFromCharsAux]
      rw [digitVal_digitChar (Nat.mod_lt _ (by norm_num))]
      omega

theorem natFromChars_natToChars (n : ℕ) :
    natFromChars (natToChars n) = n := by
  rw [natToChars]
  split
  · rename_i h0
    subst h0
    rfl
  · exact natFromChars_natToCharsAux n n le_rfl

theorem fracDigits_digits :
    ∀ (fuel r d : ℕ), 0 < d → r < d → ∀ c ∈ fracDigits fuel r d,
      isDig c = true := by
  intro fuel
  induction fuel with
  | zero => intro r d _ _ c hc; simp [fracDigits] at hc
  | succ fuel ih =>
    intro r d hd hr c hc
    rw [fracDigits] at hc
    split at hc
    · simp at hc
    · rw [List.mem_cons] at hc
      rcases hc with hc | hc
      · subst hc
        exact isDig_digitChar ((Nat.div_lt_iff_lt_mul hd).mpr (by omega))
      · exact ih _ d hd (Nat.mod_lt _ hd) c hc

theorem fracDigits_val :
    ∀ (fuel r d : ℕ), 0 < d → r < d → (r * 10 ^ fuel) % d = 0 →
      d * natFromChars (fracDigits fuel r d) =
        r * 10 ^ (fracDigits fuel r d).length := by
  intro fuel
  induction fuel with
  | zero =>
    intro r d hd hr hterm
    have h1 : r % d = r := Nat.mod_eq_of_lt hr
    have h2 : r % d = 0 := by simpa using hterm
    have hr0 : r = 0 := h1.symm.trans h2
    subst hr0
    rfl
  | succ fuel ih =>
    intro r d hd hr hterm
    rw [fracDigits]
    split
    · rename_i h0
      subst h0
      simp [natFromChars, natFromCharsAux]
    · rename_i h0
      have hr' : 10 * r % d < d := Nat.mod_lt _ hd
      have hterm' : (10 * r % d * 10 ^ fuel) % d = 0 := by
        have h3 : (10 * r * 10 ^ fuel) % d = 0 := by
          have hx : 10 * r * 10 ^ fuel = r * 10 ^ (fuel + 1) := by ring
          rw [hx, hterm]
        have h2 : (10 * r % d * 10 ^ fuel) % d = (10 * r * 10 ^ fuel) % d :=
          Nat.ModEq.mul_right (10 ^ fuel) (Nat.mod_modEq (10 * r) d)
        exact h2.trans h3
      have hih := ih (10 * r % d) d hd hr' hterm'
      rw [natFromChars_cons, List.length_cons]
      rw [digitVal_digitChar ((Nat.div_lt_iff_lt_mul hd).mpr (by omega))]
      have hdm : d * (10 * r / d) + 10 * r % d = 10 * r := Nat.div_add_mod _ _
      set L := (fracDigits fuel (10 * r % d) d).length
      calc d * (10 * r / d * 10 ^ L + natFromChars (fracDigits fuel (10 * r % d) d))
          = d * (10 * r / d) * 10 ^ L +
              d * natFromChars (fracDigits fuel (10 * r % d) d) := by ring
        _ = d * (10 * r / d) * 10 ^ L + 10 * r % d * 10 ^ L := by rw [hih]
        _ = (d * (10 * r / d) + 10 * r % d) * 10 ^ L := by ring
        _ = 10 * r * 10 ^ L := by rw [hdm]
        _ = r * 10 ^ (L + 1) := by ring

theorem fracDigits_nil_iff (fuel r d : ℕ) (hf : 0 < fuel) :
    fracDigits fuel r d = [] ↔ r = 0 := by
  rcases fuel with _ | fuel
  · omega
  · rw [fracDigits]
    split
    · rename_i h0
      simp [h0]
    · rename_i h0
      simp [h0]

theorem parseNum_digit_head (a0 : Char) (rest : Str) (h0 : isDig a0 = true) :
    parseNum (a0 :: rest) =
      match parseDec (a0 :: rest) with
      | some q => .ok (.fin q)
      | none => .error .invalid := by
  rcases isDig_cases h0 with rfl | rfl | rfl | rfl | rfl | rfl | rfl | rfl |
    rfl | rfl <;> simp [parseNum]

theorem parseNum_neg_digit_head (a0 : Char) (rest : Str) (h0 : isDig a0 = true) :
    parseNum ('-' :: a0 :: rest) =
      match parseDec (a0 :: rest) with
      | some q => .ok (.fin (-q))
      | none => .error .invalid := by
  rcases isDig_cases h0 with rfl | rfl | rfl | rfl | rfl | rfl | rfl | rfl |
    rfl | rfl <;> simp [parseNum]

theorem parseDec_render (ip r0 d : ℕ) (hd : 0 < d) (hr : r0 < d)
    (hterm : (r0 * 10 ^ d) % d = 0) :
    parseDec (natToChars ip ++
        (if fracDigits d r0 d = [] then [] else '.' :: fracDigits d r0 d)) =
      some (((d * ip + r0 : ℕ) : ℚ) / (d : ℚ)) := by
  have hd' : (d : ℚ) ≠ 0 := Nat.cast_ne_zero.mpr hd.ne'
  by_cases hf : fracDigits d r0 d = []
  · have hr0 : r0 = 0 := (fracDigits_nil_iff d r0 d hd).mp hf
    subst hr0
    rw [if_pos hf, List.append_nil]
    obtain ⟨h1, h2⟩ :=
      span_append (p := isDig) (natToChars ip) [] (natToChars_digits ip) trivial
    rw [List.append_nil] at h1 h2
    rw [parseDec]
    simp only [h1, h2]
    rw [if_neg (natToChars_ne_nil ip), natFromChars_natToChars]
    congr 1
    push_cast
    field_simp
  · rw [if_neg hf]
    obtain ⟨h1, h2⟩ :=
      span_append (p := isDig) (natToChars ip) ('.' :: fracDigits d r0 d)
        (natToChars_digits ip) (by decide : isDig '.' = false)
    obtain ⟨h3, h4⟩ :=
      span_append (p := isDig) (fracDigits d r0 d) []
        (fracDigits_digits d r0 d hd hr) trivial
    rw [List.append_nil] at h3 h4
    rw [parseDec]
    simp only [h1, h2, h3, h4]
    rw [if_neg (fun hb => natToChars_ne_nil ip hb.1)]
    have hexp : parseExp ([] : Str) = some 0 := rfl
    simp only [hexp]
    rw [decVal, natFromChars_append, natFromChars_natToChars]
    congr 1
    have hval := fracDigits_val d r0 d hd hr hterm
    have hvalQ : (d : ℚ) * (natFromChars (fracDigits d r0 d) : ℚ) =
        (r0 : ℚ) * 10 ^ (fracDigits d r0 d).length := by
      exact_mod_cast congrArg (fun k : ℕ => (k : ℚ)) hval
    have h10 : ((10 : ℚ)) ^ (fracDigits d r0 d).length ≠ 0 :=
      pow_ne_zero _ (by norm_num)
    rw [zpow_zero, mul_one]
    push_cast
    rw [div_eq_div_iff h10 hd']
    linear_combination hvalQ

theorem parseNum_renderQ (q : ℚ) (h : decimalRep q) :
    parseNum (renderQ q) = .ok (.fin q) := by
  have hd : 0 < q.den := q.den_pos
  have hd' : ((q.den : ℕ) : ℚ) ≠ 0 := Nat.cast_ne_zero.mpr hd.ne'
  have hr : q.num.natAbs % q.den < q.den := Nat.mod_lt _ hd
  have hterm : (q.num.natAbs % q.den * 10 ^ q.den) % q.den = 0 :=
    Nat.dvd_iff_mod_eq_zero.mp (Dvd.dvd.mul_left h _)
  have hpd := parseDec_render (q.num.natAbs / q.den) (q.num.natAbs % q.den)
    q.den hd hr hterm
  have hkey : ((q.den * (q.num.natAbs / q.den) + q.num.natAbs % q.den : ℕ) : ℚ) /
      (q.den : ℚ) = ((q.num.natAbs : ℕ) : ℚ) / (q.den : ℚ) := by
    rw [Nat.div_add_mod]
  obtain ⟨a0, A', hA⟩ : ∃ a0 A', natToChars (q.num.natAbs / q.den) = a0 :: A' := by
    rcases hA : natToChars (q.num.natAbs / q.den) with _ | ⟨a0, A'⟩
    · exact absurd hA (natToChars_ne_nil _)
    · exact ⟨a0, A', rfl⟩
  have ha0 : isDig a0 = true :=
    natToChars_digits _ a0 (hA ▸ List.mem_cons_self _ _)
  simp only [renderQ]
  by_cases hq : q < 0
  · rw [if_pos hq, hA]
    simp only [List.cons_append, List.nil_append]
    rw [parseNum_neg_digit_head a0 _ ha0, ← List.cons_append, ← hA, hpd, hkey]
    have hnum : ((q.num.natAbs : ℕ) : ℚ) / (q.den : ℚ) = -q := by
      rw [Int.cast_natAbs, Int.cast_abs,
        abs_of_neg (by exact_mod_cast Rat.num_neg.mpr hq : ((q.num : ℤ) : ℚ) < 0)]
      rw [neg_div, Rat.num_div_den]
    rw [hnum]
    simp
  · rw [if_neg hq, hA]
    simp only [List.cons_append, List.nil_append]
    rw [parseNum_digit_head a0 _ ha0, ← List.cons_append, ← hA, hpd, hkey]
    have hnum : ((q.num.natAbs : ℕ) : ℚ) / (q.den : ℚ) = q := by
      rw [Int.cast_natAbs, Int.cast_abs,
        abs_of_nonneg
          (by exact_mod_cast Rat.num_nonneg.mpr (not_lt.mp hq) : (0 : ℚ) ≤ ((q.num : ℤ) : ℚ))]
      rw [Rat.num_div_den]
    rw [hnum]

theorem renderQ_chars (q : ℚ) :
    ∀ c ∈ renderQ q, c = '-' ∨ c = '.' ∨ isDig c = true := by
  intro c hc
  simp only [renderQ, List.mem_append] at hc
  rcases hc with (h | h) | h
  · by_cases hq : q < 0
    · rw [if_pos hq, List.mem_singleton] at h
      exact Or.inl h
    · rw [if_neg hq] at h
      simp at h
  · exact Or.inr (Or.inr (natToChars_digits _ c h))
  · by_cases hf : fracDigits q.den (q.num.natAbs % q.den) q.den = []
    · rw [if_pos hf] at h
      simp at h
    · rw [if_neg hf, List.mem_cons] at h
      rcases h with h | h
      · exact Or.inr (Or.inl h)
      · exact Or.inr (Or.inr
          (fracDigits_digits _ _ _ q.den_pos (Nat.mod_lt _ q.den_pos) c h))

theorem not_mem_renderQ {c : Char} (q : ℚ) (h1 : c ≠ '-') (h2 : c ≠ '.')
    (h3 : isDig c = false) : c ∉ renderQ q := by
  intro hm
  rcases renderQ_chars q c hm with h | h | h
  · exact h1 h
  · exact h2 h
  · rw [h] at h3
    exact nomatch h3

theorem renderQ_ne_nil (q : ℚ) : renderQ q ≠ [] := by
  simp only [renderQ]
  intro h
  rw [List.append_eq_nil] at h
  exact natToChars_ne_nil _ (List.append_eq_nil.mp h.1).2

theorem from_at (t : Str) :
    NagiosRange.«from» ('@' :: t) =
      (parse_range t).bind fun se => .ok ⟨CheckType.Inside, se.1, se.2⟩ := by
  rw [NagiosRange.«from», if_neg (by simp)]
  rfl

theorem from_not_at (t : Str) (h : t.head? ≠ some '@') (hne : t ≠ []) :
    NagiosRange.«from» t =
      (parse_range t).bind fun se => .ok ⟨CheckType.Outside, se.1, se.2⟩ := by
  rw [NagiosRange.«from», if_neg hne, stripAt_not_at t h]

theorem render_head_ne_at (s : F) (b : Str) :
    ((if s.is_infinite then ['~'] else s.toChars) ++ b).head? ≠ some '@' := by
  rcases s with _ | _ | _ | qs
  · simp [F.is_infinite, F.toChars]
  · simp [F.is_infinite, F.toChars]
  · simp [F.is_infinite, F.toChars]
  · show (renderQ qs ++ b).head? ≠ some '@'
    rcases hA : renderQ qs with _ | ⟨a0, A'⟩
    · exact absurd hA (renderQ_ne_nil qs)
    · intro hcon
      rw [List.cons_append, List.head?_cons] at hcon
      injection hcon with hcon
      subst hcon
      exact not_mem_renderQ qs (by decide) (by decide) (by decide)
        (hA ▸ List.mem_cons_self _ _)

theorem colon_not_mem_render (s : F) :
    ':' ∉ (if s.is_infinite then ['~'] else s.toChars) := by
  rcases s with _ | _ | _ | qs
  · decide
  · decide
  · decide
  · show ':' ∉ renderQ qs
    exact not_mem_renderQ qs (by decide) (by decide) (by decide)

theorem resolveStart_render (s : F) (hs : F.decRepOK s) (hsp : s ≠ F.posInf) :
    resolveStart (if s.is_infinite then ['~'] else s.toChars) = .ok s := by
  rcases s with _ | _ | _ | qs
  · decide
  · decide
  · exact absurd rfl hsp
  · show resolveStart (renderQ qs) = .ok (.fin qs)
    have hs' : decimalRep qs := hs
    have htilde : renderQ qs ≠ ['~'] := by
      intro hcon
      exact not_mem_renderQ qs (by decide) (by decide) (by decide)
        (hcon ▸ List.mem_singleton_self '~')
    rw [resolveStart, if_neg htilde, if_neg (renderQ_ne_nil qs),
      parseNum_renderQ qs hs', emapError_ok]

theorem roundtrip_body (s e : F) (he : e.is_infinite = false)
    (hqe : F.decRepOK e) (hs : F.decRepOK s) (hsp : s ≠ F.posInf)
    (hord : F.gt s e = false) :
    parse_range ((if s.is_infinite then ['~'] else s.toChars) ++
        ':' :: (if e.is_infinite then ['~'] else e.toChars)) = .ok (s, e) := by
  rw [parse_range_cons_eq _ _ (colon_not_mem_render s)]
  have h1 := resolveStart_render s hs hsp
  have h2 : resolveEnd s (if e.is_infinite then ['~'] else e.toChars) =
      .ok e := by
    rcases e with _ | _ | _ | qe
    · show resolveEnd s ['N', 'a', 'N'] = .ok F.nan
      rw [resolveEnd, if_neg (by decide),
        (by decide : parseNum ['N', 'a', 'N'] = Except.ok F.nan),
        emapError_ok, ebind_ok, if_neg (by simp [hord])]
    · exact nomatch he
    · exact nomatch he
    · show resolveEnd s (renderQ qe) = .ok (.fin qe)
      have hqe' : decimalRep qe := hqe
      rw [resolveEnd, if_neg (renderQ_ne_nil qe), parseNum_renderQ qe hqe',
        emapError_ok, ebind_ok, if_neg (by simp [hord])]
  simp only [h1, ebind_ok, h2, ebind_ok]

/-- C9 counterexample: three rendings of the original round-trip claim fail
on the code.  `NagiosRange::from("10:")` succeeds but renders its infinite
upper bound as `"~"`, and re-parsing `"10:~"` fails with `ParseEndPoint`;
`from("inf:nan")` succeeds with lower bound `+inf`, renders it as `"~"`,
and the re-parse of `"~:NaN"` succeeds but yields lower bound `-inf`, whose
`check` differs from the original at sample `0`; and the ordering-unchecked
`from("-5")` range renders as `"0:-5"`, whose re-parse fails with
`StartGreaterThanEnd`. -/
theorem roundtrip_cex :
    ((NagiosRange.«from» ("10:".toList)).bind
        (fun r => NagiosRange.«from» r.toText) =
      .error (.ParseEndPoint .invalid)) ∧
      ((NagiosRange.«from» ("inf:nan".toList)).map
          (fun r => (r.start, r.check (.fin 0),
            (NagiosRange.«from» r.toText).map
              (fun r2 => (r2.start, r2.check (.fin 0))))) =
        .ok (F.posInf, true, .ok (F.negInf, false))) ∧
      ((NagiosRange.«from» ("-5".toList)).bind
          (fun r => NagiosRange.«from» r.toText) =
        .error .StartGreaterThanEnd) := by decide

/-- C9 (amended): for every Range whose upper bound is not one of the
infinities (a finite number or NaN: both render as themselves and
re-parse), whose finite bounds have terminating decimal expansions (every
IEEE-754 double does — this is the faithfulness condition of the
exact-rational model), whose lower bound is not positive infinity (which
renders as `"~"` and re-parses as negative infinity), and whose lower bound
is not strictly greater than its upper bound under IEEE comparison,
re-parsing the Display rendering succeeds and returns the very same Range;
hence its `check` predicate is pointwise equal to the original. -/
theorem roundtrip (r : NagiosRange) (he : r.«end».is_infinite = false)
    (hqe : F.decRepOK r.«end») (hs : F.decRepOK r.start)
    (hsp : r.start ≠ F.posInf) (hord : F.gt r.start r.«end» = false) :
    NagiosRange.«from» r.toText = .ok r := by
  obtain ⟨ct, s, e⟩ := r
  have he' : F.is_infinite e = false := he
  have hqe' : F.decRepOK e := hqe
  have hs' : F.decRepOK s := hs
  have hsp' : s ≠ F.posInf := hsp
  have hord' : F.gt s e = false := hord
  have hb := roundtrip_body s e he' hqe' hs' hsp' hord'
  cases ct
  · have ht : (NagiosRange.mk .Inside s e).toText =
        '@' :: ((if s.is_infinite then ['~'] else s.toChars) ++
          ':' :: (if e.is_infinite then ['~'] else e.toChars)) := rfl
    rw [ht, from_at]
    simp only [hb, ebind_ok]
  · have ht : (NagiosRange.mk .Outside s e).toText =
        (if s.is_infinite then ['~'] else s.toChars) ++
          ':' :: (if e.is_infinite then ['~'] else e.toChars) := rfl
    rw [ht, from_not_at _ (render_head_ne_at s _) (by simp)]
    simp only [hb, ebind_ok]

/-- C9 witness: the amended round-trip at the concrete Ranges `@10:20` and
`0:NaN` (NaN upper bound). -/
theorem roundtrip_witness :
    NagiosRange.«from» (NagiosRange.mk .Inside (.fin 10) (.fin 20)).toText =
        .ok ⟨.Inside, .fin 10, .fin 20⟩ ∧
      NagiosRange.«from» (NagiosRange.mk .Outside (.fin 0) .nan).toText =
        .ok ⟨.Outside, .fin 0, .nan⟩ :=
  ⟨roundtrip _ rfl (by decide) (by decide) (by decide) (by decide),
    roundtrip _ rfl (by decide) (by decide) (by decide) (by decide)⟩

end Nagios
